import Mathlib

/-!
Verification of the HIMLoco training core (rsl_rl: HIMRolloutStorage,
HIMPPO, HIMActorCritic) against its natural-language specification.

The Python source is shallowly embedded: tensors of shape [T, N, ...] become
Lean lists (one entry per timestep) of rows; elementwise tensor arithmetic
becomes pointwise arithmetic on rows; in-place mutation becomes explicit
state passing; a `raise` becomes an `Except.error` result paired with the
state at the moment of the raise.
-/

namespace HIMRolloutStorage

/-- One timestep's transition record for all N parallel environments,
mirroring `HIMRolloutStorage.Transition` (him_rollout_storage.py lines
37-51).  Each field holds the flattened data of one buffer row; the
freshly-constructed (or cleared) state, where every Python field is `None`,
is modelled by empty lists. -/
structure Transition where
  observations : List ℚ
  critic_observations : List ℚ
  next_critic_observations : List ℚ
  actions : List ℚ
  rewards : List ℚ
  dones : List ℚ
  values : List ℚ
  actions_log_prob : List ℚ
  action_mean : List ℚ
  action_sigma : List ℚ
  deriving DecidableEq

/-- Models `Transition.__init__` / `Transition.clear` (lines 38-51): every
field reset to `None`. -/
def Transition.empty : Transition :=
  ⟨[], [], [], [], [], [], [], [], [], []⟩

/-- The rollout storage buffer, mirroring `HIMRolloutStorage.__init__`
(lines 53-90): dense [T, N, ...] arrays modelled as length-T lists of rows,
plus the `step` write counter. -/
structure Storage where
  num_transitions_per_env : ℕ
  num_envs : ℕ
  observations : List (List ℚ)
  privileged_observations : List (List ℚ)
  next_privileged_observations : List (List ℚ)
  actions : List (List ℚ)
  rewards : List (List ℚ)
  dones : List (List ℚ)
  values : List (List ℚ)
  actions_log_prob : List (List ℚ)
  returns : List (List ℚ)
  advantages : List (List ℚ)
  mu : List (List ℚ)
  sigma : List (List ℚ)
  step : ℕ
  deriving DecidableEq

/-- Models the zero-initialised construction of the buffers
(`torch.zeros(num_transitions_per_env, num_envs, *shape)`, lines 68-90)
with `step = 0`.  The privileged branch is modelled as present (the
`privileged_obs_shape[0] is not None` configuration). -/
def Storage.init (num_envs T obs_dim priv_dim act_dim : ℕ) : Storage where
  num_transitions_per_env := T
  num_envs := num_envs
  observations := List.replicate T (List.replicate (num_envs * obs_dim) 0)
  privileged_observations := List.replicate T (List.replicate (num_envs * priv_dim) 0)
  next_privileged_observations := List.replicate T (List.replicate (num_envs * priv_dim) 0)
  actions := List.replicate T (List.replicate (num_envs * act_dim) 0)
  rewards := List.replicate T (List.replicate num_envs 0)
  dones := List.replicate T (List.replicate num_envs 0)
  values := List.replicate T (List.replicate num_envs 0)
  actions_log_prob := List.replicate T (List.replicate num_envs 0)
  returns := List.replicate T (List.replicate num_envs 0)
  advantages := List.replicate T (List.replicate num_envs 0)
  mu := List.replicate T (List.replicate (num_envs * act_dim) 0)
  sigma := List.replicate T (List.replicate (num_envs * act_dim) 0)
  step := 0

/-- Models `HIMRolloutStorage.add_transitions` (lines 92-108).  The method
first checks `self.step >= self.num_transitions_per_env` and raises
`AssertionError("Rollout buffer overflow")`; the check precedes every
write, so on the error path the state is returned untouched.  Otherwise
each buffer is written in place at index `step` and `step` is incremented
by one.  (`List.set` models `tensor[self.step].copy_(...)`; the
`.view(-1, 1)` reshapes do not change the stored data.) -/
def add_transitions (s : Storage) (t : Transition) : Storage × Except String Unit :=
  if s.num_transitions_per_env ≤ s.step then
    (s, .error "Rollout buffer overflow")
  else
    ({ s with
        observations := s.observations.set s.step t.observations
        privileged_observations := s.privileged_observations.set s.step t.critic_observations
        next_privileged_observations := s.next_privileged_observations.set s.step t.next_critic_observations
        actions := s.actions.set s.step t.actions
        rewards := s.rewards.set s.step t.rewards
        dones := s.dones.set s.step t.dones
        values := s.values.set s.step t.values
        actions_log_prob := s.actions_log_prob.set s.step t.actions_log_prob
        mu := s.mu.set s.step t.action_mean
        sigma := s.sigma.set s.step t.action_sigma
        step := s.step + 1 },
     .ok ())

/-- Models `HIMRolloutStorage.clear` (lines 110-111): only the `step`
counter is reset; no buffer is touched. -/
def clear (s : Storage) : Storage :=
  { s with step := 0 }

/-- Sequential driver: call `add_transitions` once per element of the list,
stopping at the first raised error (Python exception propagation). -/
def add_transitions_list (s : Storage) : List Transition → Storage × Except String Unit
  | [] => (s, .ok ())
  | t :: ts =>
      match add_transitions s t with
      | (s', .ok _) => add_transitions_list s' ts
      | (s', .error e) => (s', .error e)

lemma add_transitions_ok_step (s : Storage) (t : Transition) (h : s.step < s.num_transitions_per_env) :
    (add_transitions s t).1.step = s.step + 1 ∧ (add_transitions s t).2 = .ok () := by
  unfold add_transitions
  rw [if_neg (by omega)]
  exact ⟨rfl, rfl⟩

lemma add_transitions_ok_capacity (s : Storage) (t : Transition)
    (h : s.step < s.num_transitions_per_env) :
    (add_transitions s t).1.num_transitions_per_env = s.num_transitions_per_env := by
  unfold add_transitions
  rw [if_neg (by omega)]

lemma add_transitions_list_ok (ts : List Transition) :
    ∀ s : Storage, s.step + ts.length ≤ s.num_transitions_per_env →
      (add_transitions_list s ts).2 = .ok ()
        ∧ (add_transitions_list s ts).1.step = s.step + ts.length
        ∧ (add_transitions_list s ts).1.num_transitions_per_env = s.num_transitions_per_env := by
  induction ts with
  | nil => intro s _; simp [add_transitions_list]
  | cons t ts ih =>
      intro s hs
      have hlt : s.step < s.num_transitions_per_env := by
        simp only [List.length_cons] at hs; omega
      obtain ⟨h1, h2⟩ := add_transitions_ok_step s t hlt
      have h3 := add_transitions_ok_capacity s t hlt
      simp only [add_transitions_list]
      rcases hadd : add_transitions s t with ⟨s', r⟩
      rcases r with e | u
      · rw [hadd] at h2; simp at h2
      · have hstep : s'.step = s.step + 1 := by rw [hadd] at h1; exact h1
        have hcap : s'.num_transitions_per_env = s.num_transitions_per_env := by
          rw [hadd] at h3; exact h3
        have := ih s' (by rw [hstep, hcap]; simp only [List.length_cons] at hs; omega)
        refine ⟨this.1, ?_, by rw [this.2.2, hcap]⟩
        rw [this.2.1, hstep]; simp [List.length_cons]; omega

end HIMRolloutStorage

open HIMRolloutStorage

/-- C4: the step counter stays in [0, T]; a successful `add_transitions`
writes the transition's fields into slot `step` and increments `step` by
exactly one; `T` calls followed by `clear()` reset `step` to 0 without
touching (in particular without deallocating) any buffer; and a (T+1)-th
call before `clear()` raises the "Rollout buffer overflow" failure. -/
theorem add_transitions_step_counter_contract (s : Storage) (t : Transition)
    (ts : List Transition) (hstep : s.step < s.num_transitions_per_env)
    (h0 : s.step = 0) (hlen : ts.length = s.num_transitions_per_env) :
    ((add_transitions s t).2 = .ok ()
      ∧ (add_transitions s t).1.step = s.step + 1
      ∧ (add_transitions s t).1.observations = s.observations.set s.step t.observations
      ∧ (add_transitions s t).1.privileged_observations = s.privileged_observations.set s.step t.critic_observations
      ∧ (add_transitions s t).1.next_privileged_observations = s.next_privileged_observations.set s.step t.next_critic_observations
      ∧ (add_transitions s t).1.actions = s.actions.set s.step t.actions
      ∧ (add_transitions s t).1.rewards = s.rewards.set s.step t.rewards
      ∧ (add_transitions s t).1.dones = s.dones.set s.step t.dones
      ∧ (add_transitions s t).1.values = s.values.set s.step t.values
      ∧ (add_transitions s t).1.actions_log_prob = s.actions_log_prob.set s.step t.actions_log_prob
      ∧ (add_transitions s t).1.mu = s.mu.set s.step t.action_mean
      ∧ (add_transitions s t).1.sigma = s.sigma.set s.step t.action_sigma)
    ∧ (∀ s' : Storage, s'.step ≤ s'.num_transitions_per_env →
        (add_transitions s' t).1.step ≤ s'.num_transitions_per_env)
    ∧ ((add_transitions_list s ts).2 = .ok ()
      ∧ (add_transitions_list s ts).1.step = s.num_transitions_per_env
      ∧ (clear (add_transitions_list s ts).1).step = 0
      ∧ (clear (add_transitions_list s ts).1).observations = (add_transitions_list s ts).1.observations
      ∧ (clear (add_transitions_list s ts).1).rewards = (add_transitions_list s ts).1.rewards
      ∧ (∀ t' : Transition,
          (add_transitions (add_transitions_list s ts).1 t').2 = .error "Rollout buffer overflow")) := by
  refine ⟨?_, ?_, ?_⟩
  · unfold add_transitions
    rw [if_neg (by omega)]
    simp
  · intro s' hs'
    unfold add_transitions
    by_cases h : s'.num_transitions_per_env ≤ s'.step
    · rw [if_pos h]; exact hs'
    · rw [if_neg h]; simp; omega
  · obtain ⟨h1, h2, h3⟩ := add_transitions_list_ok ts s (by omega)
    refine ⟨h1, by rw [h2, h0, hlen]; omega, rfl, rfl, rfl, ?_⟩
    intro t'
    unfold add_transitions
    rw [if_pos (by rw [h2, h3, h0, hlen]; omega)]

/-- Witness for C4 at a concrete storage: T = 2, one fresh buffer, two
transitions then overflow. -/
theorem add_transitions_step_counter_contract_witness :
    ((Storage.init 1 2 1 1 1).step < (Storage.init 1 2 1 1 1).num_transitions_per_env
      ∧ (Storage.init 1 2 1 1 1).step = 0
      ∧ ([Transition.empty, Transition.empty] : List Transition).length
          = (Storage.init 1 2 1 1 1).num_transitions_per_env)
    ∧ ((HIMRolloutStorage.add_transitions_list (Storage.init 1 2 1 1 1)
          [Transition.empty, Transition.empty]).1.step
        = (Storage.init 1 2 1 1 1).num_transitions_per_env) := by
  refine ⟨⟨by decide, by decide, by decide⟩, ?_⟩
  exact (add_transitions_step_counter_contract (Storage.init 1 2 1 1 1) Transition.empty
    [Transition.empty, Transition.empty] (by decide) (by decide) (by decide)).2.2.2.1

/-- C10: when `add_transitions` is called on a full buffer
(`step >= num_transitions_per_env`), the overflow error is raised before
any write, so the entire storage state (step counter and every buffer
field) is exactly as it was before the call. -/
theorem add_transitions_overflow_leaves_state_unchanged (s : Storage) (t : Transition)
    (h : s.num_transitions_per_env ≤ s.step) :
    add_transitions s t = (s, .error "Rollout buffer overflow") := by
  unfold add_transitions
  rw [if_pos h]

/-- Witness for C10 at a concrete full storage (T = 0, so step 0 already
fills the buffer). -/
theorem add_transitions_overflow_leaves_state_unchanged_witness :
    (Storage.init 1 0 1 1 1).num_transitions_per_env ≤ (Storage.init 1 0 1 1 1).step
    ∧ add_transitions (Storage.init 1 0 1 1 1) Transition.empty
        = (Storage.init 1 0 1 1 1, .error "Rollout buffer overflow") :=
  ⟨by decide,
   add_transitions_overflow_leaves_state_unchanged (Storage.init 1 0 1 1 1)
     Transition.empty (by decide)⟩

namespace HIMRolloutStorage

/-- Inner loop of `HIMRolloutStorage.mini_batch_generator`
(him_rollout_storage.py lines 161-164): the `i`-th mini-batch of an epoch
is the contiguous slice `indices[i*mini_batch_size : (i+1)*mini_batch_size]`
of the permutation drawn at line 140. -/
def epoch_chunks (perm : List ℕ) (M c : ℕ) : List (List ℕ) :=
  (List.range M).map (fun i => (perm.drop (i * c)).take c)

/-- Models `HIMRolloutStorage.mini_batch_generator` (lines 137-177) at the
level of flattened sample indices.  `n` is `batch_size = num_envs *
num_transitions_per_env`; `mini_batch_size = n / M` (floor division, line
139); `perm` models the single `torch.randperm(num_mini_batches *
mini_batch_size)` drawn at line 140, before the epoch loop; the nested
loops (lines 159-164) yield `E * M` contiguous chunks of that one
permutation, in order. -/
def mini_batch_indices (n M E : ℕ) (perm : List ℕ) : List (List ℕ) :=
  (List.range E).flatMap (fun _ => epoch_chunks perm M (n / M))

/-- Modelled from the spec: the claimed behaviour of
`mini_batch_generator`, in which a fresh, independently drawn permutation
is used for each of the `E` epoch passes; `perms` lists one draw per
epoch.  The code's single-permutation generator is compared against this. -/
def fresh_perm_mini_batch_indices (n M : ℕ) (perms : List (List ℕ)) : List (List ℕ) :=
  perms.flatMap (fun p => epoch_chunks p M (n / M))

lemma epoch_chunks_flatten (M : ℕ) : ∀ (c : ℕ) (l : List ℕ), l.length = M * c →
    (epoch_chunks l M c).flatten = l := by
  induction M with
  | zero =>
      intro c l h
      simp only [Nat.zero_mul] at h
      simp [epoch_chunks, List.length_eq_zero.mp h]
  | succ M ih =>
      intro c l h
      have hdrop : ∀ i : ℕ, l.drop ((i + 1) * c) = (l.drop c).drop (i * c) := by
        intro i
        rw [List.drop_drop]
        congr 1
        ring
      have hlen : (l.drop c).length = M * c := by
        rw [List.length_drop, h, Nat.succ_mul]; omega
      calc (epoch_chunks l (M + 1) c).flatten
          = l.take c ++ (epoch_chunks (l.drop c) M c).flatten := by
            unfold epoch_chunks
            rw [List.range_succ_eq_map]
            simp only [List.map_cons, List.map_map, List.flatten_cons, Nat.zero_mul,
              List.drop_zero]
            congr 2
            apply List.map_congr_left
            intro i _
            simp only [Function.comp_apply, Nat.succ_eq_add_one]
            rw [hdrop i]
        _ = l.take c ++ l.drop c := by rw [ih c (l.drop c) hlen]
        _ = l := List.take_append_drop c l

lemma epoch_chunks_length (perm : List ℕ) (M c : ℕ) :
    (epoch_chunks perm M c).length = M := by
  simp [epoch_chunks]

lemma epoch_chunks_mem_length (perm : List ℕ) (M c : ℕ) (hlen : perm.length = M * c)
    (b : List ℕ) (hb : b ∈ epoch_chunks perm M c) : b.length = c := by
  unfold epoch_chunks at hb
  obtain ⟨i, hi, rfl⟩ := List.mem_map.mp hb
  have hiM : i < M := List.mem_range.mp hi
  have hmul : (i + 1) * c ≤ M * c := Nat.mul_le_mul_right c hiM
  rw [List.length_take, List.length_drop, hlen]
  rw [Nat.succ_mul] at hmul
  omega

lemma mini_batch_indices_replicate (n M E : ℕ) (perm : List ℕ) :
    mini_batch_indices n M E perm
      = (List.replicate E (epoch_chunks perm M (n / M))).flatten := by
  unfold mini_batch_indices
  induction E with
  | zero => simp
  | succ E ih =>
      rw [List.range_succ_eq_map, List.replicate_succ]
      simp only [List.flatMap_cons, List.flatten_cons]
      congr 1
      rw [← ih, List.flatMap_map]

end HIMRolloutStorage

/-- C5: when `M` divides the total flattened sample count `n = T * N`,
`mini_batch_generator(M, E)` yields exactly `M * E` mini-batches, each of
size `n / M`; every epoch pass consists of the same `M` chunks, and within
one epoch those chunks concatenate to a permutation of the full index set
(each index exactly once — no duplicates, no omissions) and are pairwise
disjoint. -/
theorem mini_batch_generator_partition (n M E : ℕ) (perm : List ℕ)
    (hM : 0 < M) (hdvd : M ∣ n) (hperm : perm.Perm (List.range n)) :
    (mini_batch_indices n M E perm).length = M * E
    ∧ (∀ b ∈ mini_batch_indices n M E perm, b.length = n / M)
    ∧ mini_batch_indices n M E perm
        = (List.replicate E (epoch_chunks perm M (n / M))).flatten
    ∧ (epoch_chunks perm M (n / M)).flatten.Perm (List.range n)
    ∧ List.Pairwise List.Disjoint (epoch_chunks perm M (n / M)) := by
  have hn : M * (n / M) = n := Nat.mul_div_cancel' hdvd
  have hlen : perm.length = M * (n / M) := by
    rw [hperm.length_eq, List.length_range, hn]
  have hflat : (epoch_chunks perm M (n / M)).flatten = perm :=
    epoch_chunks_flatten M (n / M) perm hlen
  have hmem : ∀ b ∈ epoch_chunks perm M (n / M), b.length = n / M :=
    epoch_chunks_mem_length perm M (n / M) hlen
  have hrep := mini_batch_indices_replicate n M E perm
  refine ⟨?_, ?_, hrep, ?_, ?_⟩
  · rw [hrep, List.length_flatten, List.map_replicate, epoch_chunks_length,
      List.sum_replicate, smul_eq_mul, Nat.mul_comm]
  · intro b hb
    rw [hrep] at hb
    obtain ⟨l, hl, hbl⟩ := List.mem_flatten.mp hb
    rw [List.eq_of_mem_replicate hl] at hbl
    exact hmem b hbl
  · rw [hflat]; exact hperm
  · have hnodup : (epoch_chunks perm M (n / M)).flatten.Nodup := by
      rw [hflat]
      exact hperm.nodup_iff.mpr (List.nodup_range n)
    exact (List.nodup_flatten.mp hnodup).2

/-- Witness for C5: T * N = 4 samples, M = 2 mini-batches, E = 1 epoch,
permutation [2, 0, 3, 1]. -/
theorem mini_batch_generator_partition_witness :
    (0 < 2 ∧ 2 ∣ 4 ∧ ([2, 0, 3, 1] : List ℕ).Perm (List.range 4))
    ∧ (mini_batch_indices 4 2 1 [2, 0, 3, 1]).length = 2 * 1 := by
  refine ⟨⟨by decide, by decide, by decide⟩, ?_⟩
  exact (mini_batch_generator_partition 4 2 1 [2, 0, 3, 1] (by decide) (by decide)
    (by decide)).1

/-- C2 counterexample: with T * N = 2, M = 2, E = 2, both possible draws of
`torch.randperm(2)` make epoch 0 and epoch 1 yield the identical chunk
sequence, and neither can reproduce the output that two independent fresh
per-epoch permutations `[0,1]` then `[1,0]` would give — so distinct
epochs within one call do not use independently drawn permutations. -/
theorem mini_batch_generator_fresh_epoch_perms_counterexample :
    (∀ p ∈ ([[0, 1], [1, 0]] : List (List ℕ)), p.Perm (List.range 2))
    ∧ (∀ p ∈ ([[0, 1], [1, 0]] : List (List ℕ)),
        (mini_batch_indices 2 2 2 p).take 2 = (mini_batch_indices 2 2 2 p).drop 2)
    ∧ (∀ p ∈ ([[0, 1], [1, 0]] : List (List ℕ)),
        mini_batch_indices 2 2 2 p ≠ fresh_perm_mini_batch_indices 2 2 [[0, 1], [1, 0]]) := by
  decide

/-- C2 (amended): `mini_batch_generator(M, E)` draws a single random
permutation of the `M * ((T*N) / M)` flattened sample indices once per
call, before the epoch loop, and reuses that same permutation for every
one of the `E` epoch passes, so all epochs within one call traverse
identical index chunks; a new call draws a new permutation (the generator
is not restartable). -/
theorem mini_batch_generator_single_perm_shared_across_epochs (n M E : ℕ) (perm : List ℕ) :
    mini_batch_indices n M E perm
      = (List.replicate E (epoch_chunks perm M (n / M))).flatten :=
  mini_batch_indices_replicate n M E perm

/-- C6 counterexample: with T * N = 3 samples and M = 2, the generator does
not fail: `mini_batch_size = 3 / 2 = 1`, only `randperm(2)` indices are
drawn (here the draw [0, 1]), and the call proceeds to yield 2 batches of
size 1 while flattened sample 2 is silently never yielded. -/
theorem mini_batch_generator_no_divisibility_failure_counterexample :
    ¬ (2 ∣ 3)
    ∧ (mini_batch_indices 3 2 1 [0, 1]).length = 2
    ∧ (∀ b ∈ mini_batch_indices 3 2 1 [0, 1], b.length = 1)
    ∧ (mini_batch_indices 3 2 1 [0, 1]).flatten = [0, 1]
    ∧ 2 ∉ (mini_batch_indices 3 2 1 [0, 1]).flatten := by
  decide

/-- C6 (amended): if `M` does not evenly divide `T * N`, the minibatch
machinery does not fail at all: `mini_batch_generator` floor-divides to
`mini_batch_size = (T*N) / M`, permutes only `M * mini_batch_size` sample
indices, and proceeds to yield `M * E` batches of that size; the remaining
`(T*N) mod M` flattened samples are silently never yielded (every yielded
index is below `M * ((T*N) / M)`). -/
theorem mini_batch_generator_proceeds_dropping_remainder (n M E : ℕ) (perm : List ℕ)
    (hM : 0 < M) (hperm : perm.Perm (List.range (M * (n / M)))) :
    (mini_batch_indices n M E perm).length = M * E
    ∧ (∀ b ∈ mini_batch_indices n M E perm, b.length = n / M)
    ∧ (epoch_chunks perm M (n / M)).flatten.Perm (List.range (M * (n / M)))
    ∧ (∀ i ∈ (mini_batch_indices n M E perm).flatten, i < M * (n / M)) := by
  have hlen : perm.length = M * (n / M) := by
    rw [hperm.length_eq, List.length_range]
  have hflat : (epoch_chunks perm M (n / M)).flatten = perm :=
    epoch_chunks_flatten M (n / M) perm hlen
  have hrep := mini_batch_indices_replicate n M E perm
  refine ⟨?_, ?_, ?_, ?_⟩
  · rw [hrep, List.length_flatten, List.map_replicate, epoch_chunks_length,
      List.sum_replicate, smul_eq_mul, Nat.mul_comm]
  · intro b hb
    rw [hrep] at hb
    obtain ⟨l, hl, hbl⟩ := List.mem_flatten.mp hb
    rw [List.eq_of_mem_replicate hl] at hbl
    exact epoch_chunks_mem_length perm M (n / M) hlen b hbl
  · rw [hflat]; exact hperm
  · intro i hi
    rw [hrep] at hi
    obtain ⟨b, hb, hib⟩ := List.mem_flatten.mp hi
    obtain ⟨l, hl, hbl⟩ := List.mem_flatten.mp (by rw [← hrep] at hb; rw [hrep] at hb; exact hb)
    rw [List.eq_of_mem_replicate hl] at hbl
    have : i ∈ (epoch_chunks perm M (n / M)).flatten :=
      List.mem_flatten.mpr ⟨b, hbl, hib⟩
    rw [hflat] at this
    exact List.mem_range.mp (hperm.mem_iff.mp this)

/-- Witness for C6 (amended) at T * N = 3, M = 2, E = 1, draw [1, 0]. -/
theorem mini_batch_generator_proceeds_dropping_remainder_witness :
    (0 < 2 ∧ ([1, 0] : List ℕ).Perm (List.range (2 * (3 / 2))))
    ∧ (mini_batch_indices 3 2 1 [1, 0]).length = 2 * 1 := by
  refine ⟨⟨by decide, by decide⟩, ?_⟩
  exact (mini_batch_generator_proceeds_dropping_remainder 3 2 1 [1, 0] (by decide)
    (by decide)).1

namespace HIMRolloutStorage

/-- An environment-indexed row of reals: the value-level model of one
[N]-shaped tensor slice (one timestep across all parallel environments).
Vectorised tensor arithmetic is pointwise arithmetic on such rows. -/
abbrev Row : Type := ℕ → ℝ

/-- The all-zero row; models both `torch.zeros(...)` rows and the scalar
`advantage = 0` broadcast over environments. -/
def rowZero : Row := fun _ => 0

/-- The per-timestep data `compute_returns` reads from the storage buffers:
`rewards[t]`, `dones[t]`, `values[t]` (him_rollout_storage.py lines
120-123). -/
structure StepData where
  reward : Row
  done : Row
  value : Row

/-- Default step used by out-of-range `getD` lookups. -/
def sDefault : StepData := ⟨rowZero, rowZero, rowZero⟩

/-- The `next_values` selection of `compute_returns` (lines 116-119): at
the last timestep the externally supplied `last_values`, otherwise the
value row of the following step (here: of the head of the remaining
suffix). -/
def next_values_of (rest : List StepData) (lv : Row) : Row :=
  match rest with
  | [] => lv
  | s' :: _ => s'.value

/-- One loop body of `compute_returns` (lines 120-122): with
`mask = 1 - done[t]`, computes `delta = reward[t] + mask * gamma *
next_values - values[t]` and the running accumulator `advantage = delta +
mask * gamma * lam * advantage`. -/
def gae_adv (s : StepData) (gamma lam : ℝ) (nv prevAdv : Row) : Row :=
  fun i => (s.reward i + (1 - s.done i) * gamma * nv i - s.value i)
    + (1 - s.done i) * gamma * lam * prevAdv i

/-- The backward loop of `compute_returns` (lines 114-123), as structural
recursion on the list of timesteps: the recursion on the tail performs the
loop iterations for t+1 .. T-1 (the accumulator starts at the all-zero
row), then the head performs iteration t, prepending
`returns[t] = advantage + values[t]`.  Returns (returns list, final
accumulator). -/
def gae_go (lv : Row) (gamma lam : ℝ) : List StepData → List Row × Row
  | [] => ([], rowZero)
  | s :: rest =>
      ((fun i => gae_adv s gamma lam (next_values_of rest lv) (gae_go lv gamma lam rest).2 i
          + s.value i)
         :: (gae_go lv gamma lam rest).1,
       gae_adv s gamma lam (next_values_of rest lv) (gae_go lv gamma lam rest).2)

/-- Flattened sum of a [T, N]-shaped buffer: `tensor.sum()` over all T * N
entries. -/
def flat_sum (rows : List Row) (N : ℕ) : ℝ :=
  (rows.map (fun r => ∑ i ∈ Finset.range N, r i)).sum

/-- Models `tensor.mean()` over all T * N entries. -/
noncomputable def flat_mean (rows : List Row) (N : ℕ) : ℝ :=
  flat_sum rows N / ((rows.length * N : ℕ) : ℝ)

/-- Models `tensor.std()` over all T * N entries (torch default: unbiased,
Bessel-corrected sample standard deviation). -/
noncomputable def flat_std (rows : List Row) (N : ℕ) : ℝ :=
  Real.sqrt (flat_sum (rows.map (fun r => fun i => (r i - flat_mean rows N) ^ 2)) N
    / (((rows.length * N : ℕ) : ℝ) - 1))

/-- The advantage normalization of `compute_returns` (line 127):
`(advantages - advantages.mean()) / (advantages.std() + 1e-8)`. -/
noncomputable def normalize_rows (rows : List Row) (N : ℕ) : List Row :=
  rows.map (fun r => fun i => (r i - flat_mean rows N) / (flat_std rows N + 1e-8))

/-- The two buffers `compute_returns` writes: `self.returns` and
`self.advantages`. -/
structure GAEOut where
  returns : List Row
  advantages : List Row

/-- Models `HIMRolloutStorage.compute_returns` (lines 113-127): the
backward GAE loop fills `returns`, then `advantages = returns - values` is
normalized to zero mean / unit variance with epsilon 1e-8 in the
denominator. -/
noncomputable def compute_returns (steps : List StepData) (lv : Row) (gamma lam : ℝ)
    (N : ℕ) : GAEOut where
  returns := (gae_go lv gamma lam steps).1
  advantages :=
    normalize_rows (List.zipWith (fun r s => fun i => r i - s.value i)
      (gae_go lv gamma lam steps).1 steps) N

/-- Modelled from the spec wording of the claim: `next_values` =
`last_values` at t = T-1, else `values[t+1]`. -/
def spec_next_values (steps : List StepData) (lv : Row) (t : ℕ) : Row :=
  if t = steps.length - 1 then lv else (steps.getD (t + 1) sDefault).value

/-- Modelled from the spec wording of the claim:
`delta = reward[t] + mask * gamma * next_values - values[t]` with
`mask = 1 - done[t]`. -/
def spec_delta (steps : List StepData) (lv : Row) (gamma : ℝ) (t : ℕ) : Row :=
  fun i => (steps.getD t sDefault).reward i
    + (1 - (steps.getD t sDefault).done i) * gamma * spec_next_values steps lv t i
    - (steps.getD t sDefault).value i

/-- Modelled from the spec wording of the claim: the running accumulator
`advantage = delta + mask * gamma * lam * advantage`, initialized to 0
before the loop, indexed by the number `k` of completed loop iterations
(iteration k+1 processes timestep `T - (k+1)`; the loop runs t = T-1 downto
0). -/
def spec_adv_back (steps : List StepData) (lv : Row) (gamma lam : ℝ) : ℕ → Row
  | 0 => rowZero
  | k + 1 => fun i =>
      spec_delta steps lv gamma (steps.length - (k + 1)) i
      + (1 - (steps.getD (steps.length - (k + 1)) sDefault).done i) * gamma * lam
        * spec_adv_back steps lv gamma lam k i

lemma spec_next_values_cons (s : StepData) (rest : List StepData) (lv : Row) (j : ℕ)
    (hR : 1 ≤ rest.length) :
    spec_next_values (s :: rest) lv (j + 1) = spec_next_values rest lv j := by
  unfold spec_next_values
  have hcond : (j + 1 = (s :: rest).length - 1) ↔ (j = rest.length - 1) := by
    simp only [List.length_cons]
    omega
  by_cases h : j = rest.length - 1
  · rw [if_pos (hcond.mpr h), if_pos h]
  · rw [if_neg (fun hc => h (hcond.mp hc)), if_neg h, List.getD_cons_succ]

lemma spec_delta_cons (s : StepData) (rest : List StepData) (lv : Row) (gamma : ℝ) (j : ℕ)
    (hR : 1 ≤ rest.length) :
    spec_delta (s :: rest) lv gamma (j + 1) = spec_delta rest lv gamma j := by
  funext i
  unfold spec_delta
  rw [List.getD_cons_succ, spec_next_values_cons s rest lv j hR]

lemma spec_adv_back_cons (s : StepData) (rest : List StepData) (lv : Row) (gamma lam : ℝ) :
    ∀ k, k ≤ rest.length →
      spec_adv_back (s :: rest) lv gamma lam k = spec_adv_back rest lv gamma lam k := by
  intro k
  induction k with
  | zero => intro _; rfl
  | succ k ih =>
      intro hk
      have hR : 1 ≤ rest.length := le_trans (Nat.succ_le_succ (Nat.zero_le k)) hk
      have hidx : (s :: rest).length - (k + 1) = (rest.length - (k + 1)) + 1 := by
        simp only [List.length_cons]
        omega
      funext i
      simp only [spec_adv_back]
      rw [hidx, spec_delta_cons s rest lv gamma (rest.length - (k + 1)) hR,
        List.getD_cons_succ, ih (Nat.le_of_succ_le hk)]

lemma gae_go_length (lv : Row) (gamma lam : ℝ) :
    ∀ steps : List StepData, (gae_go lv gamma lam steps).1.length = steps.length := by
  intro steps
  induction steps with
  | nil => rfl
  | cons s rest ih => simp only [gae_go, List.length_cons, ih]

lemma gae_go_eq_spec (lv : Row) (gamma lam : ℝ) : ∀ steps : List StepData,
    (gae_go lv gamma lam steps).2 = spec_adv_back steps lv gamma lam steps.length
    ∧ (∀ t, t < steps.length →
        (gae_go lv gamma lam steps).1.getD t rowZero
          = fun i => spec_adv_back steps lv gamma lam (steps.length - t) i
              + (steps.getD t sDefault).value i) := by
  intro steps
  induction steps with
  | nil =>
      exact ⟨rfl, fun t ht => absurd ht (by simp)⟩
  | cons s rest ih =>
      have hR : (s :: rest).length = rest.length + 1 := List.length_cons s rest
      have hadv : (gae_go lv gamma lam (s :: rest)).2
          = spec_adv_back (s :: rest) lv gamma lam (s :: rest).length := by
        show gae_adv s gamma lam (next_values_of rest lv) (gae_go lv gamma lam rest).2
            = spec_adv_back (s :: rest) lv gamma lam (s :: rest).length
        rw [hR]
        funext i
        simp only [spec_adv_back, List.length_cons]
        have hsub : rest.length + 1 - (rest.length + 1) = 0 := by omega
        rw [hsub]
        have hdelta : spec_delta (s :: rest) lv gamma 0 = fun i =>
            s.reward i + (1 - s.done i) * gamma * next_values_of rest lv i - s.value i := by
          funext i
          unfold spec_delta
          have hnv : spec_next_values (s :: rest) lv 0 = next_values_of rest lv := by
            unfold spec_next_values next_values_of
            cases rest with
            | nil => simp
            | cons s' rest' => simp [List.length_cons]
          rw [hnv]
          simp [List.getD_cons_zero]
        rw [hdelta]
        have hback : spec_adv_back (s :: rest) lv gamma lam rest.length
            = (gae_go lv gamma lam rest).2 := by
          rw [spec_adv_back_cons s rest lv gamma lam rest.length (le_refl _), (ih).1]
        rw [List.getD_cons_zero, hback]
        unfold gae_adv
        ring
      refine ⟨hadv, ?_⟩
      intro t ht
      match t with
      | 0 =>
          show (gae_go lv gamma lam (s :: rest)).1.getD 0 rowZero = _
          have hhead : (gae_go lv gamma lam (s :: rest)).1.getD 0 rowZero
              = fun i => gae_adv s gamma lam (next_values_of rest lv)
                  (gae_go lv gamma lam rest).2 i + s.value i := rfl
          rw [hhead]
          funext i
          simp only [List.getD_cons_zero, Nat.sub_zero]
          have h2 : gae_adv s gamma lam (next_values_of rest lv) (gae_go lv gamma lam rest).2 i
              = spec_adv_back (s :: rest) lv gamma lam (s :: rest).length i := congrFun hadv i
          rw [h2]
      | u + 1 =>
          have hu : u < rest.length := by
            rw [hR] at ht; omega
          have htail : (gae_go lv gamma lam (s :: rest)).1.getD (u + 1) rowZero
              = (gae_go lv gamma lam rest).1.getD u rowZero := by
            show (_ :: (gae_go lv gamma lam rest).1).getD (u + 1) rowZero = _
            rw [List.getD_cons_succ]
          rw [htail, (ih).2 u hu]
          have hidx : (s :: rest).length - (u + 1) = rest.length - u := by
            rw [hR]; omega
          rw [hidx, List.getD_cons_succ,
            spec_adv_back_cons s rest lv gamma lam (rest.length - u) (by omega)]

end HIMRolloutStorage

namespace HIMRolloutStorage

lemma list_sum_map_sub {α : Type} (l : List α) (f g : α → ℝ) :
    (l.map (fun x => f x - g x)).sum = (l.map f).sum - (l.map g).sum := by
  induction l with
  | nil => simp
  | cons a l ih => simp only [List.map_cons, List.sum_cons, ih]; ring

lemma list_sum_map_div {α : Type} (l : List α) (f : α → ℝ) (c : ℝ) :
    (l.map (fun x => f x / c)).sum = (l.map f).sum / c := by
  induction l with
  | nil => simp
  | cons a l ih => simp only [List.map_cons, List.sum_cons, ih]; ring

lemma list_sum_map_const {α : Type} (l : List α) (c : ℝ) :
    (l.map (fun _ => c)).sum = l.length * c := by
  induction l with
  | nil => simp
  | cons a l ih => simp only [List.map_cons, List.sum_cons, ih, List.length_cons]; push_cast; ring

lemma normalize_rows_length (rows : List Row) (N : ℕ) :
    (normalize_rows rows N).length = rows.length := by
  simp [normalize_rows]

lemma flat_sum_normalize_rows (rows : List Row) (N : ℕ) (h : 0 < rows.length * N) :
    flat_sum (normalize_rows rows N) N = 0 := by
  set mu := flat_mean rows N with hmu
  set c := flat_std rows N + 1e-8 with hc
  have h1 : flat_sum (normalize_rows rows N) N
      = (rows.map (fun r => (∑ i ∈ Finset.range N, (r i - mu)) / c)).sum := by
    unfold flat_sum normalize_rows
    rw [List.map_map]
    congr 1
    apply List.map_congr_left
    intro r _
    simp only [Function.comp_apply]
    rw [Finset.sum_div]
  have h2 : (rows.map (fun r => (∑ i ∈ Finset.range N, (r i - mu)) / c)).sum
      = (rows.map (fun r => ∑ i ∈ Finset.range N, (r i - mu))).sum / c :=
    list_sum_map_div rows _ c
  have h3 : (rows.map (fun r => ∑ i ∈ Finset.range N, (r i - mu))).sum
      = flat_sum rows N - rows.length * (N * mu) := by
    have hsplit : ∀ r : Row, (∑ i ∈ Finset.range N, (r i - mu))
        = (∑ i ∈ Finset.range N, r i) - N * mu := by
      intro r
      rw [Finset.sum_sub_distrib, Finset.sum_const, Finset.card_range, nsmul_eq_mul]
    have : rows.map (fun r => ∑ i ∈ Finset.range N, (r i - mu))
        = rows.map (fun r => (∑ i ∈ Finset.range N, r i) - N * mu) :=
      List.map_congr_left (fun r _ => hsplit r)
    rw [this, list_sum_map_sub rows _ _, list_sum_map_const]
    rfl
  have h4 : (rows.length : ℝ) * (N * mu) = flat_sum rows N := by
    rw [hmu]
    unfold flat_mean
    have hne : ((rows.length * N : ℕ) : ℝ) ≠ 0 := by
      exact_mod_cast Nat.pos_iff_ne_zero.mp h
    push_cast at hne ⊢
    field_simp
    ring
  rw [h1, h2, h3, h4, sub_self, zero_div]

lemma flat_mean_normalize_rows (rows : List Row) (N : ℕ) (h : 0 < rows.length * N) :
    flat_mean (normalize_rows rows N) N = 0 := by
  unfold flat_mean
  rw [flat_sum_normalize_rows rows N h, zero_div]

end HIMRolloutStorage

/-- C1: for every filled buffer and inputs `last_values`, `gamma`, `lam`,
`compute_returns` sets `returns[t]` by the backward GAE recursion of the
spec (next_values = last_values at t = T-1 else values[t+1]; mask = 1 -
done[t]; delta = reward[t] + mask*gamma*next_values - values[t]; running
accumulator advantage = delta + mask*gamma*lam*advantage initialized to 0
before the loop; returns[t] = advantage + values[t], so returns[t] equals
the accumulator state after the iterations T-1 downto t plus values[t]);
after the loop it sets advantages = returns - values normalized with
epsilon 1e-8 in the denominator; and for a single-step buffer (T = 1) with
done = 1 and any gamma in (0,1], lam in [0,1], returns[0] = reward[0] and
the normalized advantages have mean 0. -/
theorem compute_returns_follows_gae (steps : List StepData) (lv : Row) (gamma lam : ℝ)
    (N : ℕ) :
    (∀ t, t < steps.length →
        (compute_returns steps lv gamma lam N).returns.getD t rowZero
          = fun i => spec_adv_back steps lv gamma lam (steps.length - t) i
              + (steps.getD t sDefault).value i)
    ∧ (compute_returns steps lv gamma lam N).advantages
        = normalize_rows (List.zipWith (fun r s => fun i => r i - s.value i)
            (compute_returns steps lv gamma lam N).returns steps) N
    ∧ (∀ s : StepData, steps = [s] → s.done = (fun _ => 1) →
        0 < gamma → gamma ≤ 1 → 0 ≤ lam → lam ≤ 1 → 0 < N →
          (compute_returns steps lv gamma lam N).returns.getD 0 rowZero = s.reward
          ∧ flat_mean (compute_returns steps lv gamma lam N).advantages N = 0) := by
  refine ⟨fun t ht => (gae_go_eq_spec lv gamma lam steps).2 t ht, rfl, ?_⟩
  rintro s rfl hdone _ _ _ _ hN
  constructor
  · show (gae_go lv gamma lam [s]).1.getD 0 rowZero = s.reward
    funext i
    show gae_adv s gamma lam (next_values_of [] lv) (gae_go lv gamma lam []).2 i
        + s.value i = s.reward i
    unfold gae_adv next_values_of gae_go rowZero
    rw [hdone]
    ring
  · apply flat_mean_normalize_rows
    rw [List.length_zipWith, gae_go_length]
    simpa using hN

/-- Witness for C1 at a concrete single-step buffer: reward 5, done 1,
value 3, last_values 2, gamma = lam = 1/2, N = 2 environments. -/
theorem compute_returns_follows_gae_witness :
    (0 < (1/2 : ℝ) ∧ (1/2 : ℝ) ≤ 1 ∧ 0 ≤ (1/2 : ℝ) ∧ (0:ℕ) < 2
      ∧ (⟨fun _ => 5, fun _ => 1, fun _ => 3⟩ : StepData).done = (fun _ => 1))
    ∧ ((compute_returns [⟨fun _ => 5, fun _ => 1, fun _ => 3⟩] (fun _ => 2)
          (1/2) (1/2) 2).returns.getD 0 rowZero
        = (⟨fun _ => 5, fun _ => 1, fun _ => 3⟩ : StepData).reward
      ∧ flat_mean (compute_returns [⟨fun _ => 5, fun _ => 1, fun _ => 3⟩] (fun _ => 2)
          (1/2) (1/2) 2).advantages 2 = 0) := by
  refine ⟨⟨by norm_num, by norm_num, by norm_num, by norm_num, rfl⟩, ?_⟩
  exact (compute_returns_follows_gae [⟨fun _ => 5, fun _ => 1, fun _ => 3⟩] (fun _ => 2)
    (1/2) (1/2) 2).2.2 ⟨fun _ => 5, fun _ => 1, fun _ => 3⟩ rfl rfl
    (by norm_num) (by norm_num) (by norm_num) (by norm_num) (by norm_num)

namespace HIMPPO

/-- The four per-minibatch loss scalars produced by one iteration of the
`HIMPPO.update` loop (him_ppo.py lines 133-189). -/
structure BatchLosses where
  value_loss : ℚ
  surrogate_loss : ℚ
  estimation_loss : ℚ
  swap_loss : ℚ
  deriving DecidableEq

/-- Models the loss bookkeeping of `HIMPPO.update` (him_ppo.py lines
125-198), with the per-minibatch loss values abstracted as inputs (the
loop body computes them from network forward passes).  The loop state
carries the four running sums `mean_value_loss`, `mean_surrogate_loss`,
`mean_estimation_loss`, `mean_swap_loss` (lines 186-189) together with the
current iteration's `estimation_loss` and `swap_loss` locals (line 159);
after the loop the four sums are each divided by
`num_learning_epochs * num_mini_batches` (lines 191-195), and the function
returns `(mean_value_loss, mean_surrogate_loss, estimation_loss,
swap_loss)` — the last two being the final iteration's undivided locals,
exactly as written at line 198. -/
def update_losses (batches : List BatchLosses)
    (num_learning_epochs num_mini_batches : ℕ) : ℚ × ℚ × ℚ × ℚ :=
  let st := batches.foldl
    (fun a b => (a.1 + b.value_loss, a.2.1 + b.surrogate_loss,
      a.2.2.1 + b.estimation_loss, a.2.2.2.1 + b.swap_loss,
      b.estimation_loss, b.swap_loss))
    ((0 : ℚ), (0 : ℚ), (0 : ℚ), (0 : ℚ), (0 : ℚ), (0 : ℚ))
  let num_updates : ℚ := ((num_learning_epochs * num_mini_batches : ℕ) : ℚ)
  (st.1 / num_updates, st.2.1 / num_updates, st.2.2.2.2.1, st.2.2.2.2.2)

/-- Models the reward adjustment of `HIMPPO.process_env_step` (him_ppo.py
lines 104-111): when `infos` carries a `time_outs` entry, each
environment's recorded reward becomes
`reward + gamma * (value * time_out_flag)` — the flag is 1 for a timed-out
environment and 0 otherwise — while with no `time_outs` entry the rewards
are recorded unchanged. -/
def bootstrap_rewards (gamma : ℚ) (rewards values : List ℚ)
    (time_outs : Option (List ℚ)) : List ℚ :=
  match time_outs with
  | none => rewards
  | some flags =>
      List.zipWith (fun rv f => rv.1 + gamma * (rv.2 * f)) (rewards.zip values) flags

/-- Models `HIMPPO.process_env_step` (him_ppo.py lines 104-118): records
`next_critic_obs`, the (possibly bootstrapped) rewards and the done flags
into the in-flight transition, appends that transition to storage via
`add_transitions`, then clears the transition for reuse
(`actor_critic.reset` at line 118 is a no-op). -/
def process_env_step (gamma : ℚ) (s : Storage) (tr : Transition)
    (rewards dones : List ℚ) (time_outs : Option (List ℚ))
    (next_critic_obs : List ℚ) : (Storage × Except String Unit) × Transition :=
  (add_transitions s
    { tr with
        next_critic_observations := next_critic_obs
        rewards := bootstrap_rewards gamma rewards tr.values time_outs
        dones := dones },
   Transition.empty)

end HIMPPO

open HIMPPO

/-- C3 (code evaluation): `update` accumulates all four loss components and
divides the four sums by `num_learning_epochs * num_mini_batches`, but the
value it returns carries the means only for the value and surrogate
losses; the third and fourth returned components are the last minibatch's
raw `estimation_loss` and `swap_loss`, not the computed means.  Concretely,
for two minibatches with losses (2,4,1,1) and (6,8,3,5) and
`num_learning_epochs = 2`, `num_mini_batches = 1`, the function returns
(4, 6, 3, 5) although the mean estimation loss is 2 and the mean swap loss
is 3. -/
theorem update_losses_returns_last_batch_not_mean :
    update_losses [⟨2, 4, 1, 1⟩, ⟨6, 8, 3, 5⟩] 2 1 = (4, 6, 3, 5)
    ∧ (1 + 3) / 2 = (2 : ℚ) ∧ (2 : ℚ) ≠ 3
    ∧ (1 + 5) / 2 = (3 : ℚ) ∧ (3 : ℚ) ≠ 5 := by
  refine ⟨?_, by norm_num, by norm_num, by norm_num, by norm_num⟩
  simp only [update_losses, List.foldl_cons, List.foldl_nil]
  norm_num

/-- C7: for every `process_env_step` call whose infos carries a
`time_outs` flag, the reward recorded for each timed-out environment
equals the environment reward plus `gamma` times that environment's stored
value estimate; rewards of non-timed-out environments — and all rewards
when infos carries no `time_outs` flag — are recorded unchanged; the
transition is then appended to storage and cleared. -/
theorem process_env_step_timeout_bootstrapping (gamma : ℚ) (s : Storage) (tr : Transition)
    (rewards dones nco : List ℚ) (flags : List ℚ) (N : ℕ)
    (hr : rewards.length = N) (hv : tr.values.length = N) (hf : flags.length = N) :
    (∀ i, i < N → flags.getD i 0 = 1 →
        (bootstrap_rewards gamma rewards tr.values (some flags)).getD i 0
          = rewards.getD i 0 + gamma * tr.values.getD i 0)
    ∧ (∀ i, i < N → flags.getD i 0 = 0 →
        (bootstrap_rewards gamma rewards tr.values (some flags)).getD i 0
          = rewards.getD i 0)
    ∧ bootstrap_rewards gamma rewards tr.values none = rewards
    ∧ (∀ touts : Option (List ℚ),
        process_env_step gamma s tr rewards dones touts nco
          = (add_transitions s
              { tr with
                  next_critic_observations := nco
                  rewards := bootstrap_rewards gamma rewards tr.values touts
                  dones := dones },
             Transition.empty)) := by
  have hzlen : (List.zipWith (fun rv f => rv.1 + gamma * (rv.2 * f))
      (rewards.zip tr.values) flags).length = N := by
    rw [List.length_zipWith, List.length_zip, hr, hv, hf]
    omega
  have key : ∀ i, (hi : i < N) →
      (bootstrap_rewards gamma rewards tr.values (some flags)).getD i 0
        = rewards.getD i 0 + gamma * (tr.values.getD i 0 * flags.getD i 0) := by
    intro i hi
    unfold bootstrap_rewards
    have h1 : i < (List.zipWith (fun rv f => rv.1 + gamma * (rv.2 * f))
        (rewards.zip tr.values) flags).length := by rw [hzlen]; exact hi
    have h2 : i < rewards.length := by omega
    have h3 : i < tr.values.length := by omega
    have h4 : i < flags.length := by omega
    have h5 : i < (rewards.zip tr.values).length := by
      rw [List.length_zip]; omega
    rw [List.getD_eq_getElem _ _ h1, List.getD_eq_getElem _ _ h2,
      List.getD_eq_getElem _ _ h3, List.getD_eq_getElem _ _ h4,
      List.getElem_zipWith, List.getElem_zip]
  refine ⟨?_, ?_, rfl, fun touts => rfl⟩
  · intro i hi hflag
    rw [key i hi]
    rw [hflag]
    ring
  · intro i hi hflag
    rw [key i hi]
    rw [hflag]
    ring

/-- Witness for C7: two environments, rewards [1, 2], stored values [3, 4],
gamma = 1/2, environment 0 timed out (flags [1, 0]). -/
theorem process_env_step_timeout_bootstrapping_witness :
    (([1, 2] : List ℚ).length = 2
      ∧ ({ Transition.empty with values := [3, 4] } : Transition).values.length = 2
      ∧ ([1, 0] : List ℚ).length = 2
      ∧ (0 : ℕ) < 2 ∧ ([1, 0] : List ℚ).getD 0 0 = 1)
    ∧ (bootstrap_rewards (1/2) [1, 2]
          ({ Transition.empty with values := [3, 4] } : Transition).values
          (some [1, 0])).getD 0 0
        = ([1, 2] : List ℚ).getD 0 0
          + (1/2) * ({ Transition.empty with values := [3, 4] } : Transition).values.getD 0 0 := by
  refine ⟨⟨by decide, by decide, by decide, by decide, by decide⟩, ?_⟩
  exact (process_env_step_timeout_bootstrapping (1/2) (Storage.init 1 1 1 1 1)
    { Transition.empty with values := [3, 4] } [1, 2] [] [] [1, 0] 2
    rfl rfl rfl).1 0 (by decide) (by decide)

namespace HIMActorCritic

/-- The actor-critic module state relevant to action computation, mirroring
`HIMActorCritic` (him_actor_critic.py): the estimator and the actor/critic
MLPs are abstracted as functions on flattened observation vectors, and
`std` is the learned state-independent noise vector (line 99). -/
structure Model where
  num_one_step_obs : ℕ
  estimator : List ℝ → List ℝ × List ℝ
  actor : List ℝ → List ℝ
  critic : List ℝ → List ℝ
  std : List ℝ

/-- Models `HIMActorCritic.update_distribution` (him_actor_critic.py lines
133-139), returning the (mean, stddev) of the freshly constructed Normal
distribution: the estimator output (vel, latent) — the `torch.no_grad()`
wrapper does not change the computed values — is concatenated after the
most recent one-step observation segment `obs_history[:, :num_one_step_obs]`,
fed to the actor, and the distribution is `Normal(mean, mean * 0 + std)`. -/
def update_distribution (m : Model) (obs_history : List ℝ) : List ℝ × List ℝ :=
  let vel := (m.estimator obs_history).1
  let latent := (m.estimator obs_history).2
  let actor_input := obs_history.take m.num_one_step_obs ++ vel ++ latent
  let mean := m.actor actor_input
  (mean, List.zipWith (fun mu s => mu * 0 + s) mean m.std)

/-- Models `HIMActorCritic.act_inference` (him_actor_critic.py lines
150-155): the same estimator/concatenation/actor composition, returning
the actor output directly. -/
def act_inference (m : Model) (obs_history : List ℝ) : List ℝ :=
  let vel := (m.estimator obs_history).1
  let latent := (m.estimator obs_history).2
  let actor_input := obs_history.take m.num_one_step_obs ++ vel ++ latent
  m.actor actor_input

end HIMActorCritic

open HIMActorCritic

/-- C9: for every observation history, `act_inference` returns exactly the
mean of the Gaussian distribution that `act` (via `update_distribution`)
constructs for the same input — identical estimator outputs and identical
concatenation of the first one-step observation segment with velocity and
latent, fed through the same actor network — and `act_inference` is a
deterministic function: two calls with the same input return the identical
action. -/
theorem act_inference_returns_distribution_mean (m : Model) (obs_history : List ℝ) :
    act_inference m obs_history = (update_distribution m obs_history).1
    ∧ (∀ obs2 : List ℝ, obs_history = obs2 →
        act_inference m obs_history = act_inference m obs2) :=
  ⟨rfl, fun _ h => h ▸ rfl⟩

/-- Witness for C9 at a concrete model and input. -/
theorem act_inference_returns_distribution_mean_witness :
    ([1] : List ℝ) = [1]
    ∧ act_inference ⟨1, fun _ => ([0], [0]), id, id, [1]⟩ [1]
        = act_inference ⟨1, fun _ => ([0], [0]), id, id, [1]⟩ [1] :=
  ⟨rfl, (act_inference_returns_distribution_mean ⟨1, fun _ => ([0], [0]), id, id, [1]⟩
    [1]).2 [1] rfl⟩

namespace HIMPPO

/-- One minibatch sample's Gaussian parameters as read in the KL estimate
of `HIMPPO.update` (him_ppo.py lines 146-147): the rollout-time
(`old_mu_batch`, `old_sigma_batch`) and refreshed (`mu_batch`,
`sigma_batch`) rows, indexed by action dimension. -/
structure GaussRow where
  old_mu : ℕ → ℝ
  old_sigma : ℕ → ℝ
  mu : ℕ → ℝ
  sigma : ℕ → ℝ

/-- One action-dimension summand of the closed-form KL estimate
(him_ppo.py line 147): `log(sigma / old_sigma + 1e-5) + (old_sigma^2 +
(old_mu - mu)^2) / (2 * sigma^2) - 0.5`. -/
noncomputable def kl_term (om os m s : ℝ) : ℝ :=
  Real.log (s / os + 1e-5) + (os ^ 2 + (om - m) ^ 2) / (2 * s ^ 2) - 0.5

/-- The per-sample KL: `torch.sum(..., axis=-1)` over the A action
dimensions (him_ppo.py line 146). -/
noncomputable def kl_row (A : ℕ) (r : GaussRow) : ℝ :=
  ∑ j ∈ Finset.range A, kl_term (r.old_mu j) (r.old_sigma j) (r.mu j) (r.sigma j)

/-- The batch-mean KL estimate `kl_mean = torch.mean(kl)`
(him_ppo.py line 148). -/
noncomputable def kl_mean (A : ℕ) (batch : List GaussRow) : ℝ :=
  (batch.map (kl_row A)).sum / (batch.length : ℝ)

/-- The adaptive learning-rate update of `HIMPPO.update` (him_ppo.py lines
150-153), as applied to the optimizer's parameter groups at lines 155-156
before the gradient step: divide by 1.5 with floor 1e-5 when the KL
estimate exceeds twice the target, multiply by 1.5 with ceiling 1e-2 when
it is positive and below half the target, otherwise leave the rate
unchanged. -/
noncomputable def adjust_learning_rate (desired_kl kl lr : ℝ) : ℝ :=
  if kl > desired_kl * 2 then max 1e-5 (lr / 1.5)
  else if kl < desired_kl / 2 ∧ kl > 0 then min 1e-2 (lr * 1.5)
  else lr

lemma kl_term_pos (om os m s : ℝ) (hos : 0 < os) (hs : 0 < s) :
    0 < kl_term om os m s := by
  have hr : 0 < s / os := div_pos hs hos
  have hlog1 : Real.log (s / os) < Real.log (s / os + 1e-5) :=
    Real.log_lt_log hr (lt_add_of_pos_right _ (by norm_num))
  have hlog2 : 1 - os / s ≤ Real.log (s / os) := by
    have h := Real.log_le_sub_one_of_pos (div_pos hos hs)
    have hinv : Real.log (s / os) = - Real.log (os / s) := by
      rw [← Real.log_inv, inv_div]
    rw [hinv]
    linarith
  have hid : (os ^ 2 + (om - m) ^ 2) / (2 * s ^ 2)
      = (os / s) ^ 2 / 2 + (om - m) ^ 2 / (2 * s ^ 2) := by
    field_simp
    ring
  have hsq : 0 ≤ (os / s) ^ 2 - 2 * (os / s) + 1 := by
    nlinarith [sq_nonneg (os / s - 1)]
  have hd : 0 ≤ (om - m) ^ 2 / (2 * s ^ 2) := by positivity
  unfold kl_term
  rw [hid]
  linarith

lemma kl_row_pos (A : ℕ) (r : GaussRow) (hA : 0 < A)
    (hsig : ∀ j < A, 0 < r.old_sigma j ∧ 0 < r.sigma j) :
    0 < kl_row A r := by
  apply Finset.sum_pos
  · intro j hj
    have hjA : j < A := Finset.mem_range.mp hj
    exact kl_term_pos _ _ _ _ (hsig j hjA).1 (hsig j hjA).2
  · exact Finset.nonempty_range_iff.mpr (by omega)

lemma kl_mean_pos (A : ℕ) (batch : List GaussRow) (hA : 0 < A) (hb : batch ≠ [])
    (hsig : ∀ r ∈ batch, ∀ j < A, 0 < r.old_sigma j ∧ 0 < r.sigma j) :
    0 < kl_mean A batch := by
  unfold kl_mean
  apply div_pos
  · apply List.sum_pos
    · intro a ha
      obtain ⟨r, hrb, rfl⟩ := List.mem_map.mp ha
      exact kl_row_pos A r hA (hsig r hrb)
    · simpa using hb
  · exact_mod_cast List.length_pos.mpr hb

end HIMPPO

/-- C8: during `update()` with the adaptive schedule enabled and a positive
`desired_kl`, for every minibatch of Gaussian parameters with positive
standard deviations: if the batch-mean closed-form KL estimate exceeds
`2 * desired_kl` the learning rate is divided by 1.5 and clamped below at
1e-5; if it is below `desired_kl / 2` the learning rate is multiplied by
1.5 and clamped above at 1e-2 (the code's extra `kl_mean > 0` guard never
blocks this branch because the KL estimate is strictly positive for
positive sigmas); otherwise — inside the 2x/0.5x deadband — the learning
rate is unchanged.  The adjusted rate is what `update` then installs in
the optimizer before the gradient step. -/
theorem update_adaptive_kl_learning_rate (A : ℕ) (batch : List GaussRow)
    (desired_kl lr : ℝ) (hA : 0 < A) (hb : batch ≠ [])
    (hsig : ∀ r ∈ batch, ∀ j < A, 0 < r.old_sigma j ∧ 0 < r.sigma j)
    (hd : 0 < desired_kl) :
    (kl_mean A batch > desired_kl * 2 →
        adjust_learning_rate desired_kl (kl_mean A batch) lr = max 1e-5 (lr / 1.5))
    ∧ (kl_mean A batch < desired_kl / 2 →
        adjust_learning_rate desired_kl (kl_mean A batch) lr = min 1e-2 (lr * 1.5))
    ∧ (desired_kl / 2 ≤ kl_mean A batch → kl_mean A batch ≤ desired_kl * 2 →
        adjust_learning_rate desired_kl (kl_mean A batch) lr = lr) := by
  have hpos : 0 < kl_mean A batch := kl_mean_pos A batch hA hb hsig
  refine ⟨?_, ?_, ?_⟩
  · intro h
    unfold adjust_learning_rate
    rw [if_pos h]
  · intro h
    unfold adjust_learning_rate
    rw [if_neg (by intro hcon; linarith), if_pos ⟨h, hpos⟩]
  · intro h1 h2
    unfold adjust_learning_rate
    rw [if_neg (not_lt.mpr h2), if_neg (fun hcon => absurd hcon.1 (not_lt.mpr h1))]

/-- A concrete one-sample, one-dimension Gaussian minibatch with all means
0 and all standard deviations 1, used by the C8 witness. -/
def demoGaussRow : HIMPPO.GaussRow :=
  ⟨fun _ => 0, fun _ => 1, fun _ => 0, fun _ => 1⟩

/-- Witness for C8: one sample, one action dimension, identical unit
Gaussians, desired_kl = 1/100, learning rate 1/1000. -/
theorem update_adaptive_kl_learning_rate_witness :
    ((0 : ℕ) < 1 ∧ ([demoGaussRow] : List HIMPPO.GaussRow) ≠ [] ∧ (0 : ℝ) < 1/100
      ∧ (∀ r ∈ [demoGaussRow], ∀ j < 1, 0 < r.old_sigma j ∧ 0 < r.sigma j))
    ∧ (HIMPPO.kl_mean 1 [demoGaussRow] > (1/100) * 2 →
        HIMPPO.adjust_learning_rate (1/100) (HIMPPO.kl_mean 1 [demoGaussRow]) (1/1000)
          = max 1e-5 ((1/1000) / 1.5)) := by
  have hsig : ∀ r ∈ ([demoGaussRow] : List HIMPPO.GaussRow),
      ∀ j < 1, 0 < r.old_sigma j ∧ 0 < r.sigma j := by
    intro r hr j _
    rw [List.mem_singleton.mp hr]
    exact ⟨by norm_num [demoGaussRow], by norm_num [demoGaussRow]⟩
  refine ⟨⟨by norm_num, by simp, by norm_num, hsig⟩, ?_⟩
  exact (update_adaptive_kl_learning_rate 1 [demoGaussRow] (1/100) (1/1000)
    (by norm_num) (by simp) hsig (by norm_num)).1
